import Mathlib

/-!
Shallow embedding of das7pad/pre-compress (src/main.go, package precompress)
and proofs about it.

The embedding models:
* `IfSmallerBuffer` (main.go lines 90-145): the conditional compressor, as a
  pure function over an `Env` of I/O-operation outcomes; the gzip encoder is
  abstracted as the sequence of output chunks it forwards to the size-capped
  writer during `io.CopyBuffer` and during `Close`.  Filesystem side effects
  are recorded as a trace of successful operations (`FSOp`).
* `limitedWriter.Write` (lines 154-161) exactly as written: append to the
  buffer (a `bytes.Buffer` write never fails), decrement the remaining-budget
  counter, fail with the distinguished sentinel once the counter is negative.
* the regular-expression pattern built by `Recursive` (line 225):
  a small regex AST together with a parser faithful to RE2 grammar for the
  fragment of the language actually generated there (literal characters,
  alternation with lowest precedence, and the `^` / `$` anchors), plus the
  RE2 matching semantics of `regexp.MatchString` (unanchored substring
  search).
* `recurse` (lines 183-219): the tree walker, over a right-nested tree type
  `Forest` standing for the sorted `os.ReadDir` listings; `filepath.Join` of
  clean path components is modelled by component lists rendered with "/".
* `worker` (lines 163-181) and the aggregation in `Recursive` (lines
  232-260), with the scheduler abstracted by the partition of queued items
  among workers and by the order in which workers publish their results.
-/

/-- Errors occurring in the model: the distinguished sentinel
`errSizeThresholdExceeded` (main.go line 147), opaque I/O errors, and a
regexp-compilation error. -/
inductive Err where
  | sizeThresholdExceeded
  | ioErr (code : Nat)
  | configErr
deriving DecidableEq, Repr

/-- Result of `os.Stat`: file size in bytes, modification time, permission
bits. -/
structure Stat where
  size : Nat
  mtime : Int
  perm : Nat
deriving DecidableEq, Repr

/-- Abstraction of the I/O world a single `IfSmallerBuffer` call interacts
with.  Each field fixes the outcome of one operation of main.go lines 91-143;
`copyWrites` / `closeWrites` are the compressed chunks the gzip encoder
forwards to the capped writer during `io.CopyBuffer` resp. `Close`, and
`content` is the file's byte content (so `content.length` is the byte count
`io.CopyBuffer` reports after a full read). -/
structure Env where
  stat : Except Err Stat
  chtimesSrcErr : Option Err
  openErr : Option Err
  content : List Nat
  copyWrites : List (List Nat)
  copyReadErr : Option Err
  closeWrites : List (List Nat)
  writeFileErr : Option Err
  chtimesTmpErr : Option Err
  renameErr : Option Err

/-- Model of the Go struct `limitedWriter` (main.go lines 149-152): the
in-memory output buffer plus the remaining-budget counter `n`. -/
structure limitedWriter where
  buf : List Nat
  n : Int
deriving DecidableEq, Repr

/-- Model of `limitedWriter.Write` (main.go lines 154-161).  The underlying
`bytes.Buffer.Write` always appends all of `p` and returns `(len(p), nil)`;
then the counter is decremented and, if it became negative, the write reports
`(0, errSizeThresholdExceeded)`. -/
def limitedWriter.Write (l : limitedWriter) (p : List Nat) : (Nat × Option Err) × limitedWriter :=
  let l' : limitedWriter := ⟨l.buf ++ p, l.n - p.length⟩
  if l'.n < 0 then ((0, some Err.sizeThresholdExceeded), l')
  else ((p.length, none), l')

/-- Feeds a sequence of chunks to the limited writer, as the copy loop in
`io.CopyBuffer` (resp. the flush in `gzip.Writer.Close`) does, stopping at
the first write error. -/
def runWrites : limitedWriter → List (List Nat) → limitedWriter × Option Err
  | w, [] => (w, none)
  | w, p :: rest =>
    match w.Write p with
    | ((_, some e), w') => (w', some e)
    | ((_, none), w') => runWrites w' rest

/-- Successful filesystem side effects of one `IfSmallerBuffer` call, in
execution order. -/
inductive FSOp where
  | chtimesSrc (t : Int)
  | openSrc
  | writeTmp (bytes : List Nat) (perm : Nat)
  | chtimesTmp (t : Int)
  | renameTmpToGz
deriving DecidableEq, Repr

/-- Continuation of `IfSmallerBuffer` after the stat / mtime-normalization
steps succeeded (main.go lines 100-144), given the stat result `s` and the
trace `tr` of already-performed operations. -/
def ifSmallerFromOpen (env : Env) (m : Int) (s : Stat) (tr : List FSOp) :
    (Bool × Option Err) × List FSOp :=
  match env.openErr with
  | some e => ((false, some e), tr)
  | none =>
    let tr := tr ++ [FSOp.openSrc]
    match runWrites ⟨[], (s.size : Int)⟩ env.copyWrites with
    | (_, some e) =>
      if e = Err.sizeThresholdExceeded then ((false, none), tr) else ((false, some e), tr)
    | (w1, none) =>
      match env.copyReadErr with
      | some e =>
        if e = Err.sizeThresholdExceeded then ((false, none), tr) else ((false, some e), tr)
      | none =>
        match runWrites w1 env.closeWrites with
        | (_, some e) =>
          if e = Err.sizeThresholdExceeded then ((false, none), tr) else ((false, some e), tr)
        | (w2, none) =>
          if env.content.length ≤ w2.buf.length then ((false, none), tr)
          else
            match env.writeFileErr with
            | some e => ((false, some e), tr)
            | none =>
              let tr := tr ++ [FSOp.writeTmp w2.buf s.perm]
              match env.chtimesTmpErr with
              | some e => ((false, some e), tr)
              | none =>
                let tr := tr ++ [FSOp.chtimesTmp m]
                match env.renameErr with
                | some e => ((false, some e), tr)
                | none => ((true, none), tr ++ [FSOp.renameTmpToGz])

/-- Model of `IfSmallerBuffer` (main.go lines 90-145).  Returns the Go result
pair `(changed, err)` together with the trace of successful filesystem
operations.  The rejection test at line 130 is `int64(out.Len()) >= n`, i.e.
`content.length ≤ w2.buf.length` here. -/
def IfSmallerBuffer (env : Env) (m : Int) : (Bool × Option Err) × List FSOp :=
  match env.stat with
  | .error e => ((false, some e), [])
  | .ok s =>
    if s.mtime = m then ifSmallerFromOpen env m s []
    else
      match env.chtimesSrcErr with
      | some e => ((false, some e), [])
      | none => ifSmallerFromOpen env m s [FSOp.chtimesSrc m]

/-- Well-formed environments: the sentinel `errSizeThresholdExceeded` is
produced only by `limitedWriter.Write`, never by the operating system, so no
injected I/O outcome carries it. -/
def Env.wf (env : Env) : Bool :=
  env.chtimesSrcErr ≠ some Err.sizeThresholdExceeded &&
  env.openErr ≠ some Err.sizeThresholdExceeded &&
  env.copyReadErr ≠ some Err.sizeThresholdExceeded &&
  env.writeFileErr ≠ some Err.sizeThresholdExceeded &&
  env.chtimesTmpErr ≠ some Err.sizeThresholdExceeded &&
  env.renameErr ≠ some Err.sizeThresholdExceeded &&
  (match env.stat with
   | .error e => e ≠ Err.sizeThresholdExceeded
   | .ok _ => true)

/-- Relevant filesystem state around one source file: the source file's
mtime, the temporary `path+".gz~"` file and the artifact `path+".gz"`
(content and mtime, `none` when absent or unspecified). -/
structure FS where
  srcMTime : Int
  tmpBytes : Option (List Nat)
  tmpMTime : Option Int
  gzBytes : Option (List Nat)
  gzMTime : Option Int
deriving DecidableEq, Repr

/-- Effect of one successful filesystem operation on the state.  A fresh
`os.WriteFile` leaves the file with the current wall-clock time, which the
model treats as unspecified (`none`) until `os.Chtimes` pins it. -/
def applyOp (fs : FS) : FSOp → FS
  | .chtimesSrc t => { fs with srcMTime := t }
  | .openSrc => fs
  | .writeTmp b _ => { fs with tmpBytes := some b, tmpMTime := none }
  | .chtimesTmp t => { fs with tmpMTime := some t }
  | .renameTmpToGz =>
    { fs with gzBytes := fs.tmpBytes, gzMTime := fs.tmpMTime, tmpBytes := none, tmpMTime := none }

/-- Replays a trace of filesystem operations. -/
def applyTrace (fs : FS) (ops : List FSOp) : FS := ops.foldl applyOp fs

/-- Regular-expression abstract syntax for the fragment of RE2 generated by
`Recursive`: the empty expression, single literal characters, the `^` and `$`
anchors, concatenation and alternation. -/
inductive RE where
  | emp
  | lit (c : Char)
  | bol
  | eol
  | cat (a b : RE)
  | alt (a b : RE)
deriving DecidableEq, Repr

/-- RE2 metacharacters, by code point: . \ + * ? ( ) | [ ] \x7b \x7d ^ $. -/
def isMeta (c : Char) : Bool :=
  c.toNat ∈ [46, 92, 43, 42, 63, 40, 41, 124, 91, 93, 123, 125, 94, 36]

/-- Characters the embedded parser understands: non-metacharacters taken as
literals, plus the three metacharacters `|`, `^`, `$` that the pattern built
at main.go line 225 uses. -/
def isSupportedChar (c : Char) : Bool :=
  !isMeta c || c = '|' || c = '^' || c = '$'

/-- Splits a pattern at every top-level `|`.  In the supported fragment there
are no groups, so every `|` is top level; RE2 gives alternation the lowest
precedence, so this is the outermost structure of the pattern. -/
def splitBar : List Char → List (List Char)
  | [] => [[]]
  | c :: rest =>
    if c = '|' then [] :: splitBar rest
    else match splitBar rest with
      | [] => [[c]]
      | b :: bs => (c :: b) :: bs

/-- Parses a single non-alternation character: an anchor or a literal. -/
def parseAtom (c : Char) : RE :=
  if c = '^' then .bol else if c = '$' then .eol else .lit c

/-- Parses one alternation branch as the concatenation of its atoms. -/
def parseBranch (cs : List Char) : RE :=
  cs.foldr (fun c acc => RE.cat (parseAtom c) acc) RE.emp

/-- Combines the branches of an alternation. -/
def parseAlts : List (List Char) → RE
  | [] => RE.emp
  | [b] => parseBranch b
  | b :: bs => RE.alt (parseBranch b) (parseAlts bs)

/-- Model of `regexp.Compile` restricted to the supported fragment of RE2:
patterns containing unsupported metacharacters are out of the model's domain
(`none` also stands for the compilation failures `Recursive` propagates as a
configuration error). -/
def goParse (s : String) : Option RE :=
  if s.data.all isSupportedChar then some (parseAlts (splitBar s.data)) else none

/-- Model of the pattern construction in `Recursive` (main.go line 225):
`regexp.Compile("^" + strings.Join(ignorePattern, "|") + "$")`. -/
def goCompilePattern (frags : List String) : Option RE :=
  goParse ("^" ++ String.intercalate "|" frags ++ "$")

/-- Does `r` match the span `[i, j)` of `s`?  The anchors `^` and `$` are
zero-width assertions at positions `0` and `s.length`. -/
def spanMatch (s : List Char) : RE → Nat → Nat → Bool
  | .emp, i, j => i = j
  | .lit c, i, j => j = i + 1 && s.get? i = some c
  | .bol, i, j => i = 0 && j = i
  | .eol, i, j => i = s.length && j = i
  | .cat a b, i, j =>
    (List.range (j + 1)).any fun k => i ≤ k && k ≤ j && spanMatch s a i k && spanMatch s b k j
  | .alt a b, i, j => spanMatch s a i j || spanMatch s b i j

/-- Model of `regexp.MatchString`: unanchored search, i.e. the expression
matches some span of the string. -/
def matchString (r : RE) (s : String) : Bool :=
  (List.range (s.data.length + 1)).any fun i =>
    (List.range (s.data.length + 1)).any fun j =>
      i ≤ j && spanMatch s.data r i j

/-- Modelled from the spec's words (for comparison with the compiled
pattern): one ignore fragment, compiled on its own, matches the entire
relative path. -/
def fragWholeMatch (frag s : String) : Bool :=
  match goParse frag with
  | none => false
  | some r => spanMatch s.data r 0 s.data.length

/-- Convenience wrapper: the path `s` is matched by the compiled combination
of the fragments (false when the pattern is out of the model's domain). -/
def ignoredByCompiled (frags : List String) (s : String) : Bool :=
  match goCompilePattern frags with
  | none => false
  | some r => matchString r s

/-- Model of `strings.HasSuffix`. -/
def hasSuffix (s suffix : String) : Bool :=
  suffix.data.isSuffixOf s.data

/-- Go's byte-wise lexicographic string comparison (`<` on `string`), on
code points; UTF-8 encoding preserves this order, so comparing code points
agrees with comparing the encoded bytes. -/
def goCharsLt : List Char → List Char → Bool
  | [], [] => false
  | [], _ :: _ => true
  | _ :: _, [] => false
  | a :: as, b :: bs =>
    if a.toNat < b.toNat then true
    else if b.toNat < a.toNat then false
    else goCharsLt as bs

/-- Comparison of Go strings, see `goCharsLt`. -/
def goStrLt (a b : String) : Bool := goCharsLt a.data b.data

/-- Directory trees as right-nested listings: `Forest` stands for the sorted
entry sequence `os.ReadDir` returns, where each entry is a regular file, a
directory with its own listing, or any other entry kind (symlink, device,
...), followed by the rest of the listing. -/
inductive Forest where
  | nil
  | file (name : String) (rest : Forest)
  | other (name : String) (rest : Forest)
  | dir (name : String) (children : Forest) (rest : Forest)
deriving Repr

/-- Names of the entries of a listing, in listing order. -/
def forestNames : Forest → List String
  | .nil => []
  | .file n rest => n :: forestNames rest
  | .other n rest => n :: forestNames rest
  | .dir n _ rest => n :: forestNames rest

/-- Model of the forward sibling scan in `recurse` (main.go lines 203-212):
walk the remaining entries of the listing; report success on a name equal to
`needle`, stop unsuccessfully at the first name lexicographically greater
than `needle`. -/
def hasSibling (needle : String) : Forest → Bool
  | .nil => false
  | .file n rest =>
    if n = needle then true else if goStrLt needle n then false else hasSibling needle rest
  | .other n rest =>
    if n = needle then true else if goStrLt needle n then false else hasSibling needle rest
  | .dir n _ rest =>
    if n = needle then true else if goStrLt needle n then false else hasSibling needle rest

/-- Rendering of a relative path from its components, modelling
`filepath.Join` over clean, nonempty, slash-free components (main.go lines
171, 190). -/
def render : List String → String
  | [] => ""
  | [a] => a
  | a :: rest => a ++ "/" ++ render rest

/-- Model of `recurse` (main.go lines 183-219), with I/O removed: the list of
relative paths (as component lists) pushed onto the work channel, in
traversal order.  Directory entries are skipped entirely when their relative
path matches the ignore pattern; regular files are skipped when their name
ends in ".gz" or when the forward scan finds the sibling `name+".gz"`; other
entry kinds are ignored. -/
def emits (ign : String → Bool) (pre : List String) : Forest → List (List String)
  | .nil => []
  | .dir name children rest =>
    (if ign (render (pre ++ [name])) then []
     else emits ign (pre ++ [name]) children) ++ emits ign pre rest
  | .file name rest =>
    (if hasSuffix name ".gz" then []
     else if hasSibling (name ++ ".gz") rest then []
     else [pre ++ [name]]) ++ emits ign pre rest
  | .other _ rest => emits ign pre rest

/-- All entry names in the tree (recursively) are nonempty, as names from a
real directory listing are. -/
def namesOk : Forest → Bool
  | .nil => true
  | .file n rest => (if n = "" then false else true) && namesOk rest
  | .other n rest => (if n = "" then false else true) && namesOk rest
  | .dir n children rest => (if n = "" then false else true) && namesOk children && namesOk rest

/-- Result of one worker: its success count, its first error, and (as a ghost
trace) the paths on which it invoked the conditional compressor. -/
structure WorkerRes where
  n : Nat
  err : Option Err
  invoked : List (List String)
deriving DecidableEq, Repr

/-- Model of `worker` (main.go lines 163-181) over the sequence of work items
this worker receives from the channel: items matching the ignore pattern are
skipped; otherwise the conditional compressor (abstracted by `compress`) is
invoked; its successes are counted and the worker stops at its first
error, returning the partial count. -/
def worker (ign : String → Bool) (compress : List String → Bool × Option Err) :
    List (List String) → WorkerRes
  | [] => ⟨0, none, []⟩
  | p :: rest =>
    if ign (render p) then worker ign compress rest
    else
      match compress p with
      | (changed, none) =>
        let r := worker ign compress rest
        ⟨(if changed then 1 else 0) + r.n, r.err, p :: r.invoked⟩
      | (_, some e) => ⟨0, some e, [p]⟩

/-- First error in publication order, modelling the
`firstErr.CompareAndSwap(nil, &err)` cell of `Recursive` (main.go line 243):
the first worker to publish a non-nil error wins. -/
def firstPublishedErr : List WorkerRes → Option Err
  | [] => none
  | w :: rest =>
    match w.err with
    | some e => some e
    | none => firstPublishedErr rest

/-- Aggregation of `Recursive` (main.go lines 232-260): the total is the sum
of all workers' counts (`total.Add(n)`), and the returned error is the
walker's traversal error if there is one, otherwise the first worker error
published. -/
def RecursiveAgg (walkErr : Option Err) (ws : List WorkerRes) : Nat × Option Err :=
  ((ws.map WorkerRes.n).sum,
   match walkErr with
   | some e => some e
   | none => firstPublishedErr ws)

/-- Model of `Recursive` (main.go lines 221-261).  The scheduler is
abstracted by `shares`, the partition of the queued work items among the
workers in publication order, and `walkErr` is the result of the traversal.
When the ignore fragments do not compile, `Recursive` returns the error
immediately with count 0 and no worker result. -/
def Recursive (frags : List String) (compress : List String → Bool × Option Err)
    (walkErr : Option Err) (shares : List (List (List String))) : Nat × Option Err :=
  match goCompilePattern frags with
  | none => (0, some Err.configErr)
  | some re => RecursiveAgg walkErr (shares.map (worker (matchString re) compress))

/-- Total byte length of a sequence of chunks. -/
def totalLen (chunks : List (List Nat)) : Nat := (chunks.map List.length).sum

lemma runWrites_none_eq (chunks : List (List Nat)) : ∀ w : limitedWriter,
    (runWrites w chunks).2 = none →
    (runWrites w chunks).1 = ⟨w.buf ++ chunks.flatten, w.n - (totalLen chunks : Int)⟩ := by
  induction chunks with
  | nil => intro w _; simp [runWrites, totalLen]
  | cons p rest ih =>
    intro w h
    by_cases hc : w.n - (p.length : Int) < 0
    · simp [runWrites, limitedWriter.Write, hc] at h
    · simp only [runWrites, limitedWriter.Write, hc, if_false] at h ⊢
      rw [ih ⟨w.buf ++ p, w.n - (p.length : Int)⟩ h]
      simp [totalLen]
      ring

lemma runWrites_err_STE (chunks : List (List Nat)) : ∀ (w : limitedWriter) (e : Err),
    (runWrites w chunks).2 = some e → e = Err.sizeThresholdExceeded := by
  induction chunks with
  | nil => intro w e h; simp [runWrites] at h
  | cons p rest ih =>
    intro w e h
    by_cases hc : w.n - (p.length : Int) < 0
    · simp [runWrites, limitedWriter.Write, hc] at h
      exact h.symm
    · simp only [runWrites, limitedWriter.Write, hc, if_false] at h
      exact ih _ _ h

lemma runWrites_none_iff (chunks : List (List Nat)) : ∀ w : limitedWriter, 0 ≤ w.n →
    ((runWrites w chunks).2 = none ↔ (totalLen chunks : Int) ≤ w.n) := by
  induction chunks with
  | nil => intro w h0; simp [runWrites, totalLen]; exact h0
  | cons p rest ih =>
    intro w h0
    have htot : (totalLen (p :: rest) : Int) = (p.length : Int) + (totalLen rest : Int) := by
      simp [totalLen]
    by_cases hc : w.n - (p.length : Int) < 0
    · simp only [runWrites, limitedWriter.Write, hc, if_true]
      constructor
      · intro h; simp at h
      · intro h
        exfalso
        have hnn : (0 : Int) ≤ (totalLen rest : Int) := by positivity
        omega
    · simp only [runWrites, limitedWriter.Write, hc, if_false]
      have h0' : (0 : Int) ≤ w.n - (p.length : Int) := by omega
      rw [ih ⟨w.buf ++ p, w.n - (p.length : Int)⟩ h0']
      have hproj : (⟨w.buf ++ p, w.n - (p.length : Int)⟩ : limitedWriter).n
          = w.n - (p.length : Int) := rfl
      rw [hproj]
      constructor <;> intro h <;> omega

lemma runWrites_abort (chunks : List (List Nat)) : ∀ w : limitedWriter, 0 ≤ w.n →
    ∀ e, (runWrites w chunks).2 = some e →
    e = Err.sizeThresholdExceeded ∧
    ∃ k, k < chunks.length ∧
      (totalLen (chunks.take k) : Int) ≤ w.n ∧
      w.n < (totalLen (chunks.take (k + 1)) : Int) ∧
      (runWrites w chunks).1.buf = w.buf ++ (chunks.take (k + 1)).flatten := by
  induction chunks with
  | nil => intro w _ e h; simp [runWrites] at h
  | cons p rest ih =>
    intro w h0 e h
    by_cases hc : w.n - (p.length : Int) < 0
    · simp only [runWrites, limitedWriter.Write, hc, if_true] at h ⊢
      simp only [Option.some.injEq] at h
      refine ⟨h.symm, 0, by simp, by simpa [totalLen], ?_, by simp⟩
      have : (totalLen [p] : Int) = (p.length : Int) := by simp [totalLen]
      simp [totalLen]
      omega
    · simp only [runWrites, limitedWriter.Write, hc, if_false] at h ⊢
      have h0' : (0 : Int) ≤ w.n - (p.length : Int) := by omega
      obtain ⟨hSTE, k, hk, hle, hgt, hbuf⟩ := ih ⟨w.buf ++ p, w.n - (p.length : Int)⟩ h0' e h
      have hproj : (⟨w.buf ++ p, w.n - (p.length : Int)⟩ : limitedWriter).n
          = w.n - (p.length : Int) := rfl
      rw [hproj] at hle hgt
      refine ⟨hSTE, k + 1, by simpa using hk, ?_, ?_, ?_⟩
      · have : (totalLen (List.take (k + 1) (p :: rest)) : Int)
            = (p.length : Int) + (totalLen (List.take k rest) : Int) := by
          simp [totalLen]
        omega
      · have : (totalLen (List.take (k + 1 + 1) (p :: rest)) : Int)
            = (p.length : Int) + (totalLen (List.take (k + 1) rest) : Int) := by
          simp [totalLen]
        omega
      · simpa [List.append_assoc] using hbuf

/-- C3, counterexample: with a Size Budget of 1 byte, a write that makes the
cumulative bytes written reach (equal) the budget does NOT abort — the write
succeeds with no error — and encoding continues: a subsequent chunk is still
appended to the capped buffer.  So "aborts the moment the cumulative bytes
would reach or exceed the budget" is false at this input; the abort only
happens on strictly exceeding the budget. -/
theorem c3_reach_no_abort_counterexample :
    (runWrites ⟨[], (1 : Int)⟩ [[7]]).2 = none ∧
    totalLen [[7]] = 1 ∧
    (runWrites ⟨[], (1 : Int)⟩ [[7], [8]]).1.buf = [7, 8] := by decide

/-- C3 (amended): during streaming compression, the moment the cumulative
bytes written to the size-capped buffer would strictly exceed the Size Budget
(the remaining-budget counter would go negative), compression aborts with the
distinguished budget-exceeded condition rather than continuing: the run of
writes fails exactly when the total output exceeds the budget, the error is
`errSizeThresholdExceeded`, and the abort happens at the first chunk whose
write pushes the cumulative total over the budget, with no later chunk
written. -/
theorem c3_budget_abort (size : Nat) (chunks : List (List Nat)) :
    ((runWrites ⟨[], (size : Int)⟩ chunks).2 ≠ none ↔ size < totalLen chunks) ∧
    (∀ e, (runWrites ⟨[], (size : Int)⟩ chunks).2 = some e →
      e = Err.sizeThresholdExceeded ∧
      ∃ k, k < chunks.length ∧ totalLen (chunks.take k) ≤ size ∧
        size < totalLen (chunks.take (k + 1)) ∧
        (runWrites ⟨[], (size : Int)⟩ chunks).1.buf = (chunks.take (k + 1)).flatten) := by
  have hn : ((⟨[], (size : Int)⟩ : limitedWriter)).n = (size : Int) := rfl
  have h0 : (0 : Int) ≤ ((⟨[], (size : Int)⟩ : limitedWriter)).n := by rw [hn]; positivity
  constructor
  · rw [Ne, runWrites_none_iff chunks _ h0, hn]
    constructor
    · intro h
      by_contra hcon
      exact h (by exact_mod_cast Nat.le_of_not_lt hcon)
    · intro h hcon
      have : totalLen chunks ≤ size := by exact_mod_cast hcon
      omega
  · intro e he
    obtain ⟨hSTE, k, hk, hle, hgt, hbuf⟩ := runWrites_abort chunks _ h0 e he
    rw [hn] at hle hgt
    refine ⟨hSTE, k, hk, ?_, ?_, by simpa using hbuf⟩
    · exact_mod_cast hle
    · exact_mod_cast hgt

/-- Witness for `c3_budget_abort` at a concrete input: budget 1, one chunk of
two bytes; the run aborts with the distinguished condition. -/
theorem c3_budget_abort_witness :
    (1 : Nat) < totalLen [[5, 6]] ∧
    (runWrites ⟨[], ((1 : Nat) : Int)⟩ [[5, 6]]).2 ≠ none := by
  refine ⟨by decide, ?_⟩
  exact (c3_budget_abort 1 [[5, 6]]).1.mpr (by decide)

lemma fromOpen_true_inv (env : Env) (m : Int) (s : Stat) (tr : List FSOp)
    (h : (ifSmallerFromOpen env m s tr).1.1 = true) :
    env.openErr = none ∧ env.copyReadErr = none ∧ env.writeFileErr = none ∧
    env.chtimesTmpErr = none ∧ env.renameErr = none ∧
    ∃ w1 w2, runWrites ⟨[], (s.size : Int)⟩ env.copyWrites = (w1, none) ∧
      runWrites w1 env.closeWrites = (w2, none) ∧
      w2.buf.length < env.content.length ∧
      ifSmallerFromOpen env m s tr =
        ((true, none),
         tr ++ [FSOp.openSrc, FSOp.writeTmp w2.buf s.perm, FSOp.chtimesTmp m,
           FSOp.renameTmpToGz]) := by
  unfold ifSmallerFromOpen at h
  cases hopen : env.openErr with
  | some e => rw [hopen] at h; simp at h
  | none =>
    rw [hopen] at h
    rcases hcw : runWrites ⟨[], (s.size : Int)⟩ env.copyWrites with ⟨w1, e1⟩
    rw [hcw] at h
    cases e1 with
    | some e => dsimp only at h; split at h <;> simp at h
    | none =>
      dsimp only at h
      cases hcr : env.copyReadErr with
      | some e => rw [hcr] at h; dsimp only at h; split at h <;> simp at h
      | none =>
        rw [hcr] at h
        dsimp only at h
        rcases hcl : runWrites w1 env.closeWrites with ⟨w2, e2⟩
        rw [hcl] at h
        cases e2 with
        | some e => dsimp only at h; split at h <;> simp at h
        | none =>
          dsimp only at h
          by_cases hlen : env.content.length ≤ w2.buf.length
          · rw [if_pos hlen] at h; simp at h
          · rw [if_neg hlen] at h
            cases hwf : env.writeFileErr with
            | some e => rw [hwf] at h; simp at h
            | none =>
              rw [hwf] at h
              cases hct : env.chtimesTmpErr with
              | some e => rw [hct] at h; simp at h
              | none =>
                rw [hct] at h
                cases hre : env.renameErr with
                | some e => rw [hre] at h; simp at h
                | none =>
                  refine ⟨rfl, rfl, rfl, rfl, rfl, w1, w2, rfl, hcl, by omega, ?_⟩
                  unfold ifSmallerFromOpen
                  rw [hopen, hcw]
                  dsimp only
                  rw [hcr]
                  dsimp only
                  rw [hcl]
                  dsimp only
                  rw [if_neg hlen, hwf, hct, hre]
                  simp

lemma fromOpen_writeTmp_inv (env : Env) (m : Int) (s : Stat) (tr : List FSOp)
    (b : List Nat) (q : Nat)
    (h : FSOp.writeTmp b q ∈ (ifSmallerFromOpen env m s tr).2) :
    FSOp.writeTmp b q ∈ tr ∨
    (b.length < env.content.length ∧
      b = env.copyWrites.flatten ++ env.closeWrites.flatten) := by
  unfold ifSmallerFromOpen at h
  cases hopen : env.openErr with
  | some e => rw [hopen] at h; exact Or.inl h
  | none =>
    rw [hopen] at h
    rcases hcw : runWrites ⟨[], (s.size : Int)⟩ env.copyWrites with ⟨w1, e1⟩
    rw [hcw] at h
    cases e1 with
    | some e =>
      dsimp only at h
      split at h <;> simp only [List.mem_append, List.mem_singleton] at h <;>
        rcases h with h | h <;> first | exact Or.inl h | simp at h
    | none =>
      dsimp only at h
      have hw1 : w1 = ⟨env.copyWrites.flatten, (s.size : Int) - (totalLen env.copyWrites : Int)⟩ := by
        have := runWrites_none_eq env.copyWrites ⟨[], (s.size : Int)⟩ (by rw [hcw])
        rw [hcw] at this
        simpa using this
      cases hcr : env.copyReadErr with
      | some e =>
        rw [hcr] at h; dsimp only at h
        split at h <;> simp only [List.mem_append, List.mem_singleton] at h <;>
          rcases h with h | h <;> first | exact Or.inl h | simp at h
      | none =>
        rw [hcr] at h
        dsimp only at h
        rcases hcl : runWrites w1 env.closeWrites with ⟨w2, e2⟩
        rw [hcl] at h
        cases e2 with
        | some e =>
          dsimp only at h
          split at h <;> simp only [List.mem_append, List.mem_singleton] at h <;>
            rcases h with h | h <;> first | exact Or.inl h | simp at h
        | none =>
          have hw2 : w2.buf = env.copyWrites.flatten ++ env.closeWrites.flatten := by
            have := runWrites_none_eq env.closeWrites w1 (by rw [hcl])
            rw [hcl] at this
            rw [show w2 = (w2, (none : Option Err)).1 from rfl, this, hw1]
          dsimp only at h
          by_cases hlen : env.content.length ≤ w2.buf.length
          · rw [if_pos hlen] at h
            simp only [List.mem_append, List.mem_singleton] at h
            rcases h with h | h
            · exact Or.inl h
            · simp at h
          · rw [if_neg hlen] at h
            have hmid : FSOp.writeTmp b q = FSOp.writeTmp w2.buf s.perm →
                FSOp.writeTmp b q ∈ tr ∨
                  (b.length < env.content.length ∧
                    b = env.copyWrites.flatten ++ env.closeWrites.flatten) := by
              intro h'
              injection h' with h1 h2
              subst h1
              exact Or.inr ⟨by omega, hw2⟩
            cases hwf : env.writeFileErr with
            | some e =>
              rw [hwf] at h
              rcases List.mem_append.mp h with h | h
              · exact Or.inl h
              · simp at h
            | none =>
              rw [hwf] at h
              cases hct : env.chtimesTmpErr with
              | some e =>
                rw [hct] at h
                rcases List.mem_append.mp h with h | h
                · rcases List.mem_append.mp h with h | h
                  · exact Or.inl h
                  · simp at h
                · exact hmid (by simpa using h)
              | none =>
                rw [hct] at h
                cases hre : env.renameErr with
                | some e =>
                  rw [hre] at h
                  rcases List.mem_append.mp h with h | h
                  · rcases List.mem_append.mp h with h | h
                    · rcases List.mem_append.mp h with h | h
                      · exact Or.inl h
                      · simp at h
                    · exact hmid (by simpa using h)
                  · simp at h
                | none =>
                  rw [hre] at h
                  rcases List.mem_append.mp h with h | h
                  · rcases List.mem_append.mp h with h | h
                    · rcases List.mem_append.mp h with h | h
                      · rcases List.mem_append.mp h with h | h
                        · exact Or.inl h
                        · simp at h
                      · exact hmid (by simpa using h)
                    · simp at h
                  · simp at h

lemma flatten_length (l : List (List Nat)) : l.flatten.length = totalLen l := by
  induction l with
  | nil => simp [totalLen]
  | cons p r ih => simp [totalLen] at ih ⊢

lemma ifSmaller_eq_fromOpen (env : Env) (m : Int) (s : Stat)
    (hst : env.stat = Except.ok s) (hok : s.mtime = m ∨ env.chtimesSrcErr = none) :
    ∃ tr0, (tr0 = ([] : List FSOp) ∨ tr0 = [FSOp.chtimesSrc m]) ∧
      IfSmallerBuffer env m = ifSmallerFromOpen env m s tr0 := by
  unfold IfSmallerBuffer
  rw [hst]
  dsimp only
  by_cases hm : s.mtime = m
  · exact ⟨[], Or.inl rfl, by rw [if_pos hm]⟩
  · rcases hok with hok | hok
    · exact absurd hok hm
    · exact ⟨[FSOp.chtimesSrc m], Or.inr rfl, by rw [if_neg hm, hok]⟩

lemma ifSmaller_true_inv (env : Env) (m : Int)
    (h : (IfSmallerBuffer env m).1.1 = true) :
    ∃ s tr0, env.stat = Except.ok s ∧
      (tr0 = ([] : List FSOp) ∨ tr0 = [FSOp.chtimesSrc m]) ∧
      (s.mtime = m → tr0 = []) ∧
      (s.mtime ≠ m → env.chtimesSrcErr = none ∧ tr0 = [FSOp.chtimesSrc m]) ∧
      IfSmallerBuffer env m = ifSmallerFromOpen env m s tr0 := by
  unfold IfSmallerBuffer at h
  cases hst : env.stat with
  | error e => rw [hst] at h; simp at h
  | ok s =>
    rw [hst] at h
    dsimp only at h
    by_cases hm : s.mtime = m
    · rw [if_pos hm] at h
      refine ⟨s, [], rfl, Or.inl rfl, fun _ => rfl, fun hc => absurd hm hc, ?_⟩
      unfold IfSmallerBuffer
      rw [hst]
      dsimp only
      rw [if_pos hm]
    · rw [if_neg hm] at h
      cases hch : env.chtimesSrcErr with
      | some e => rw [hch] at h; simp at h
      | none =>
        refine ⟨s, [FSOp.chtimesSrc m], rfl, Or.inr rfl, fun hc => absurd hc hm,
          fun _ => ⟨rfl, rfl⟩, ?_⟩
        unfold IfSmallerBuffer
        rw [hst]
        dsimp only
        rw [if_neg hm, hch]

lemma ifSmaller_writeTmp_inv (env : Env) (m : Int) (b : List Nat) (q : Nat)
    (h : FSOp.writeTmp b q ∈ (IfSmallerBuffer env m).2) :
    b.length < env.content.length ∧
    b = env.copyWrites.flatten ++ env.closeWrites.flatten := by
  unfold IfSmallerBuffer at h
  cases hst : env.stat with
  | error e => rw [hst] at h; simp at h
  | ok s =>
    rw [hst] at h
    dsimp only at h
    by_cases hm : s.mtime = m
    · rw [if_pos hm] at h
      rcases fromOpen_writeTmp_inv env m s [] b q h with h | h
      · simp at h
      · exact h
    · rw [if_neg hm] at h
      cases hch : env.chtimesSrcErr with
      | some e => rw [hch] at h; simp at h
      | none =>
        rw [hch] at h
        rcases fromOpen_writeTmp_inv env m s [FSOp.chtimesSrc m] b q h with h | h
        · simp at h
        · exact h

lemma fromOpen_reject (env : Env) (m : Int) (s : Stat) (tr : List FSOp)
    (hopen : env.openErr = none)
    (hcw : (runWrites ⟨[], (s.size : Int)⟩ env.copyWrites).2 = none)
    (hcr : env.copyReadErr = none)
    (hcl : (runWrites (runWrites ⟨[], (s.size : Int)⟩ env.copyWrites).1 env.closeWrites).2 = none)
    (hlen : env.content.length ≤
      (runWrites (runWrites ⟨[], (s.size : Int)⟩ env.copyWrites).1 env.closeWrites).1.buf.length) :
    ifSmallerFromOpen env m s tr = ((false, none), tr ++ [FSOp.openSrc]) := by
  unfold ifSmallerFromOpen
  rw [hopen]
  rcases hcweq : runWrites ⟨[], (s.size : Int)⟩ env.copyWrites with ⟨w1, e1⟩
  rw [hcweq] at hcw hcl hlen
  dsimp only at hcw hcl hlen ⊢
  subst hcw
  dsimp only
  rw [hcr]
  dsimp only
  rcases hcleq : runWrites w1 env.closeWrites with ⟨w2, e2⟩
  rw [hcleq] at hcl hlen
  dsimp only at hcl hlen ⊢
  subst hcl
  dsimp only
  rw [if_pos hlen]

/-- C1: for every artifact the conditional compressor materializes
(`IfSmallerBuffer` returns `(true, nil)`), the compressed buffer's byte
length is strictly less than the number of bytes read from the source file;
and whenever the encoder finishes within budget but the final buffer is not
strictly smaller than the bytes read, no artifact is written and the function
returns `(false, nil)`. -/
theorem c1_size_guarantee (env : Env) (m : Int) :
    ((IfSmallerBuffer env m).1 = (true, none) →
      ∃ q, FSOp.writeTmp (env.copyWrites.flatten ++ env.closeWrites.flatten) q
            ∈ (IfSmallerBuffer env m).2 ∧
        (env.copyWrites.flatten ++ env.closeWrites.flatten).length < env.content.length) ∧
    (∀ b q, FSOp.writeTmp b q ∈ (IfSmallerBuffer env m).2 →
      b.length < env.content.length) ∧
    (∀ s, env.stat = Except.ok s → (s.mtime = m ∨ env.chtimesSrcErr = none) →
      env.openErr = none → env.copyReadErr = none →
      (runWrites ⟨[], (s.size : Int)⟩ env.copyWrites).2 = none →
      (runWrites (runWrites ⟨[], (s.size : Int)⟩ env.copyWrites).1 env.closeWrites).2 = none →
      env.content.length ≤ totalLen env.copyWrites + totalLen env.closeWrites →
      (IfSmallerBuffer env m).1 = (false, none) ∧
      ∀ b q, FSOp.writeTmp b q ∉ (IfSmallerBuffer env m).2) := by
  refine ⟨?_, ?_, ?_⟩
  · intro h
    have h1 : (IfSmallerBuffer env m).1.1 = true := by rw [h]
    obtain ⟨s, tr0, hst, htr0, _, _, heq⟩ := ifSmaller_true_inv env m h1
    rw [heq] at h1
    obtain ⟨_, _, _, _, _, w1, w2, hcw, hcl, hlen, heq2⟩ := fromOpen_true_inv env m s tr0 h1
    have hw1 : w1 = ⟨env.copyWrites.flatten, (s.size : Int) - (totalLen env.copyWrites : Int)⟩ := by
      have := runWrites_none_eq env.copyWrites ⟨[], (s.size : Int)⟩ (by rw [hcw])
      rw [hcw] at this
      simpa using this
    have hw2 : w2.buf = env.copyWrites.flatten ++ env.closeWrites.flatten := by
      have := runWrites_none_eq env.closeWrites w1 (by rw [hcl])
      rw [hcl] at this
      rw [show w2 = (w2, (none : Option Err)).1 from rfl, this, hw1]
    refine ⟨s.perm, ?_, ?_⟩
    · rw [heq, heq2, ← hw2]
      simp
    · rw [← hw2]; exact hlen
  · intro b q h
    exact (ifSmaller_writeTmp_inv env m b q h).1
  · intro s hst hok hopen hcr hcw hcl hlen
    obtain ⟨tr0, htr0, heq⟩ := ifSmaller_eq_fromOpen env m s hst hok
    have hlen' : env.content.length ≤
        (runWrites (runWrites ⟨[], (s.size : Int)⟩ env.copyWrites).1 env.closeWrites).1.buf.length := by
      have e1 := runWrites_none_eq env.copyWrites ⟨[], (s.size : Int)⟩ hcw
      have e2 := runWrites_none_eq env.closeWrites
        (runWrites ⟨[], (s.size : Int)⟩ env.copyWrites).1 hcl
      rw [e2, e1]
      simpa [flatten_length] using hlen
    have hrej := fromOpen_reject env m s tr0 hopen hcw hcr hcl hlen'
    rw [heq, hrej]
    refine ⟨rfl, ?_⟩
    intro b q hmem
    rcases htr0 with rfl | rfl <;> simp at hmem

/-- Witness environment for the conditional compressor: a 10-byte file whose
gzip output is 3 bytes during the copy and 1 byte on close, with no I/O
failures and a matching mtime. -/
def envC1 : Env :=
  ⟨Except.ok ⟨10, 5, 420⟩, none, none, [0, 1, 2, 3, 4, 5, 6, 7, 8, 9],
    [[1, 2, 3]], none, [[4]], none, none, none⟩

/-- Witness for `c1_size_guarantee`: on `envC1` the compressor materializes
the artifact and its 4 compressed bytes are fewer than the 10 bytes read. -/
theorem c1_size_guarantee_witness :
    (IfSmallerBuffer envC1 5).1 = (true, none) ∧
    ∃ q, FSOp.writeTmp (envC1.copyWrites.flatten ++ envC1.closeWrites.flatten) q
          ∈ (IfSmallerBuffer envC1 5).2 ∧
      (envC1.copyWrites.flatten ++ envC1.closeWrites.flatten).length < envC1.content.length := by
  exact ⟨by decide, (c1_size_guarantee envC1 5).1 (by decide)⟩

lemma fromOpen_open_err (env : Env) (m : Int) (s : Stat) (tr : List FSOp) (e : Err)
    (h : env.openErr = some e) :
    ifSmallerFromOpen env m s tr = ((false, some e), tr) := by
  unfold ifSmallerFromOpen
  rw [h]

lemma fromOpen_copy_budget (env : Env) (m : Int) (s : Stat) (tr : List FSOp)
    (hopen : env.openErr = none)
    (hcw : (runWrites ⟨[], (s.size : Int)⟩ env.copyWrites).2 = some Err.sizeThresholdExceeded) :
    ifSmallerFromOpen env m s tr = ((false, none), tr ++ [FSOp.openSrc]) := by
  unfold ifSmallerFromOpen
  rw [hopen]
  rcases hcweq : runWrites ⟨[], (s.size : Int)⟩ env.copyWrites with ⟨w1, e1⟩
  rw [hcweq] at hcw
  dsimp only at hcw ⊢
  subst hcw
  dsimp only
  rw [if_pos rfl]

lemma fromOpen_read_err (env : Env) (m : Int) (s : Stat) (tr : List FSOp) (e : Err)
    (hopen : env.openErr = none)
    (hcw : (runWrites ⟨[], (s.size : Int)⟩ env.copyWrites).2 = none)
    (hcr : env.copyReadErr = some e) (hne : e ≠ Err.sizeThresholdExceeded) :
    ifSmallerFromOpen env m s tr = ((false, some e), tr ++ [FSOp.openSrc]) := by
  unfold ifSmallerFromOpen
  rw [hopen]
  rcases hcweq : runWrites ⟨[], (s.size : Int)⟩ env.copyWrites with ⟨w1, e1⟩
  rw [hcweq] at hcw
  dsimp only at hcw ⊢
  subst hcw
  dsimp only
  rw [hcr]
  dsimp only
  rw [if_neg hne]

lemma fromOpen_close_budget (env : Env) (m : Int) (s : Stat) (tr : List FSOp)
    (hopen : env.openErr = none)
    (hcw : (runWrites ⟨[], (s.size : Int)⟩ env.copyWrites).2 = none)
    (hcr : env.copyReadErr = none)
    (hcl : (runWrites (runWrites ⟨[], (s.size : Int)⟩ env.copyWrites).1 env.closeWrites).2
      = some Err.sizeThresholdExceeded) :
    ifSmallerFromOpen env m s tr = ((false, none), tr ++ [FSOp.openSrc]) := by
  unfold ifSmallerFromOpen
  rw [hopen]
  rcases hcweq : runWrites ⟨[], (s.size : Int)⟩ env.copyWrites with ⟨w1, e1⟩
  rw [hcweq] at hcw hcl
  dsimp only at hcw hcl ⊢
  subst hcw
  dsimp only
  rw [hcr]
  dsimp only
  rcases hcleq : runWrites w1 env.closeWrites with ⟨w2, e2⟩
  rw [hcleq] at hcl
  dsimp only at hcl ⊢
  subst hcl
  dsimp only
  rw [if_pos rfl]

lemma fromOpen_late_err (env : Env) (m : Int) (s : Stat) (tr : List FSOp) (e : Err)
    (hopen : env.openErr = none)
    (hcw : (runWrites ⟨[], (s.size : Int)⟩ env.copyWrites).2 = none)
    (hcr : env.copyReadErr = none)
    (hcl : (runWrites (runWrites ⟨[], (s.size : Int)⟩ env.copyWrites).1 env.closeWrites).2 = none)
    (hlen : (runWrites (runWrites ⟨[], (s.size : Int)⟩ env.copyWrites).1 env.closeWrites).1.buf.length
      < env.content.length)
    (hlate : env.writeFileErr = some e ∨
      (env.writeFileErr = none ∧ env.chtimesTmpErr = some e) ∨
      (env.writeFileErr = none ∧ env.chtimesTmpErr = none ∧ env.renameErr = some e)) :
    (ifSmallerFromOpen env m s tr).1 = (false, some e) := by
  unfold ifSmallerFromOpen
  rw [hopen]
  rcases hcweq : runWrites ⟨[], (s.size : Int)⟩ env.copyWrites with ⟨w1, e1⟩
  rw [hcweq] at hcw hcl hlen
  dsimp only at hcw hcl hlen ⊢
  subst hcw
  dsimp only
  rw [hcr]
  dsimp only
  rcases hcleq : runWrites w1 env.closeWrites with ⟨w2, e2⟩
  rw [hcleq] at hcl hlen
  dsimp only at hcl hlen ⊢
  subst hcl
  dsimp only
  rw [if_neg (by omega)]
  rcases hlate with hw | ⟨hw, hc⟩ | ⟨hw, hc, hr⟩
  · rw [hw]
  · rw [hw, hc]
  · rw [hw, hc, hr]

lemma fromOpen_err_inv (env : Env) (m : Int) (s : Stat) (tr : List FSOp) (e : Err)
    (h : (ifSmallerFromOpen env m s tr).1.2 = some e) :
    env.openErr = some e ∨ env.copyReadErr = some e ∨ env.writeFileErr = some e ∨
    env.chtimesTmpErr = some e ∨ env.renameErr = some e := by
  unfold ifSmallerFromOpen at h
  cases hopen : env.openErr with
  | some e0 => rw [hopen] at h; dsimp only at h; rw [Option.some.injEq] at h; exact Or.inl (by rw [h])
  | none =>
    rw [hopen] at h
    rcases hcw : runWrites ⟨[], (s.size : Int)⟩ env.copyWrites with ⟨w1, e1⟩
    rw [hcw] at h
    cases e1 with
    | some e0 =>
      have : e0 = Err.sizeThresholdExceeded := runWrites_err_STE env.copyWrites _ e0 (by rw [hcw])
      subst this
      dsimp only at h
      rw [if_pos rfl] at h
      simp at h
    | none =>
      dsimp only at h
      cases hcr : env.copyReadErr with
      | some e0 =>
        rw [hcr] at h
        dsimp only at h
        by_cases hne : e0 = Err.sizeThresholdExceeded
        · rw [if_pos hne] at h; simp at h
        · rw [if_neg hne] at h
          rw [Option.some.injEq] at h
          exact Or.inr (Or.inl (by rw [h]))
      | none =>
        rw [hcr] at h
        dsimp only at h
        rcases hcl : runWrites w1 env.closeWrites with ⟨w2, e2⟩
        rw [hcl] at h
        cases e2 with
        | some e0 =>
          have : e0 = Err.sizeThresholdExceeded := runWrites_err_STE env.closeWrites _ e0 (by rw [hcl])
          subst this
          dsimp only at h
          rw [if_pos rfl] at h
          simp at h
        | none =>
          dsimp only at h
          by_cases hlen : env.content.length ≤ w2.buf.length
          · rw [if_pos hlen] at h; simp at h
          · rw [if_neg hlen] at h
            cases hwf : env.writeFileErr with
            | some e0 =>
              rw [hwf] at h
              rw [Option.some.injEq] at h
              exact Or.inr (Or.inr (Or.inl (by rw [h])))
            | none =>
              rw [hwf] at h
              cases hct : env.chtimesTmpErr with
              | some e0 =>
                rw [hct] at h
                rw [Option.some.injEq] at h
                exact Or.inr (Or.inr (Or.inr (Or.inl (by rw [h]))))
              | none =>
                rw [hct] at h
                cases hre : env.renameErr with
                | some e0 =>
                  rw [hre] at h
                  rw [Option.some.injEq] at h
                  exact Or.inr (Or.inr (Or.inr (Or.inr (by rw [h]))))
                | none => rw [hre] at h; simp at h

lemma ifSmaller_err_inv (env : Env) (m : Int) (e : Err)
    (h : (IfSmallerBuffer env m).1.2 = some e) :
    env.stat = Except.error e ∨ env.chtimesSrcErr = some e ∨ env.openErr = some e ∨
    env.copyReadErr = some e ∨ env.writeFileErr = some e ∨
    env.chtimesTmpErr = some e ∨ env.renameErr = some e := by
  unfold IfSmallerBuffer at h
  cases hst : env.stat with
  | error e0 =>
    rw [hst] at h
    dsimp only at h
    rw [Option.some.injEq] at h
    exact Or.inl (by rw [h])
  | ok s =>
    rw [hst] at h
    dsimp only at h
    by_cases hm : s.mtime = m
    · rw [if_pos hm] at h
      exact Or.inr (Or.inr (fromOpen_err_inv env m s [] e h))
    · rw [if_neg hm] at h
      cases hch : env.chtimesSrcErr with
      | some e0 =>
        rw [hch] at h
        dsimp only at h
        rw [Option.some.injEq] at h
        exact Or.inr (Or.inl (by rw [h]))
      | none =>
        rw [hch] at h
        exact Or.inr (Or.inr (fromOpen_err_inv env m s [FSOp.chtimesSrc m] e h))

/-- C4: the budget-exceeded condition is internal only.  Under a well-formed
environment the result error is never the sentinel; any error comes with
result `false`; when the copy into the encoder or the encoder's close fails
with the size-threshold-exceeded sentinel, `IfSmallerBuffer` returns
`(false, nil)` and writes no artifact; and every other I/O failure — at stat,
chtimes, open, the copy's read side, the temporary write, the temporary
chtimes, or the rename — is surfaced as a non-nil error with result
`false`. -/
theorem c4_error_policy (env : Env) (m : Int) :
    (env.wf = true → (IfSmallerBuffer env m).1.2 ≠ some Err.sizeThresholdExceeded) ∧
    (∀ e, (IfSmallerBuffer env m).1.2 = some e → (IfSmallerBuffer env m).1.1 = false) ∧
    (∀ s, env.stat = Except.ok s → (s.mtime = m ∨ env.chtimesSrcErr = none) →
      env.openErr = none →
      (runWrites ⟨[], (s.size : Int)⟩ env.copyWrites).2 = some Err.sizeThresholdExceeded →
      (IfSmallerBuffer env m).1 = (false, none) ∧
        ∀ b q, FSOp.writeTmp b q ∉ (IfSmallerBuffer env m).2) ∧
    (∀ s, env.stat = Except.ok s → (s.mtime = m ∨ env.chtimesSrcErr = none) →
      env.openErr = none → (runWrites ⟨[], (s.size : Int)⟩ env.copyWrites).2 = none →
      env.copyReadErr = none →
      (runWrites (runWrites ⟨[], (s.size : Int)⟩ env.copyWrites).1 env.closeWrites).2
        = some Err.sizeThresholdExceeded →
      (IfSmallerBuffer env m).1 = (false, none) ∧
        ∀ b q, FSOp.writeTmp b q ∉ (IfSmallerBuffer env m).2) ∧
    (∀ e, env.stat = Except.error e → (IfSmallerBuffer env m).1 = (false, some e)) ∧
    (∀ s e, env.stat = Except.ok s → s.mtime ≠ m → env.chtimesSrcErr = some e →
      (IfSmallerBuffer env m).1 = (false, some e)) ∧
    (∀ s e, env.stat = Except.ok s → (s.mtime = m ∨ env.chtimesSrcErr = none) →
      env.openErr = some e → (IfSmallerBuffer env m).1 = (false, some e)) ∧
    (∀ s e, env.stat = Except.ok s → (s.mtime = m ∨ env.chtimesSrcErr = none) →
      env.openErr = none → (runWrites ⟨[], (s.size : Int)⟩ env.copyWrites).2 = none →
      env.copyReadErr = some e → e ≠ Err.sizeThresholdExceeded →
      (IfSmallerBuffer env m).1 = (false, some e)) ∧
    (∀ s e, env.stat = Except.ok s → (s.mtime = m ∨ env.chtimesSrcErr = none) →
      env.openErr = none → (runWrites ⟨[], (s.size : Int)⟩ env.copyWrites).2 = none →
      env.copyReadErr = none →
      (runWrites (runWrites ⟨[], (s.size : Int)⟩ env.copyWrites).1 env.closeWrites).2 = none →
      totalLen env.copyWrites + totalLen env.closeWrites < env.content.length →
      (env.writeFileErr = some e ∨
        (env.writeFileErr = none ∧ env.chtimesTmpErr = some e) ∨
        (env.writeFileErr = none ∧ env.chtimesTmpErr = none ∧ env.renameErr = some e)) →
      (IfSmallerBuffer env m).1 = (false, some e)) := by
  refine ⟨?_, ?_, ?_, ?_, ?_, ?_, ?_, ?_, ?_⟩
  · intro hwf hcon
    rcases ifSmaller_err_inv env m Err.sizeThresholdExceeded hcon with
      h1 | h1 | h1 | h1 | h1 | h1 | h1 <;> simp [Env.wf, h1] at hwf
  · intro e he
    by_contra hb
    have hbt : (IfSmallerBuffer env m).1.1 = true := by
      revert hb
      cases (IfSmallerBuffer env m).1.1 <;> simp
    obtain ⟨s, tr0, _, _, _, _, heq⟩ := ifSmaller_true_inv env m hbt
    rw [heq] at hbt
    obtain ⟨_, _, _, _, _, w1, w2, _, _, _, heq2⟩ := fromOpen_true_inv env m s tr0 hbt
    rw [heq, heq2] at he
    simp at he
  · intro s hst hok hopen hcw
    obtain ⟨tr0, htr0, heq⟩ := ifSmaller_eq_fromOpen env m s hst hok
    rw [heq, fromOpen_copy_budget env m s tr0 hopen hcw]
    refine ⟨rfl, ?_⟩
    intro b q hmem
    rcases htr0 with rfl | rfl <;> simp at hmem
  · intro s hst hok hopen hcw hcr hcl
    obtain ⟨tr0, htr0, heq⟩ := ifSmaller_eq_fromOpen env m s hst hok
    rw [heq, fromOpen_close_budget env m s tr0 hopen hcw hcr hcl]
    refine ⟨rfl, ?_⟩
    intro b q hmem
    rcases htr0 with rfl | rfl <;> simp at hmem
  · intro e hst
    unfold IfSmallerBuffer
    rw [hst]
  · intro s e hst hm hch
    unfold IfSmallerBuffer
    rw [hst]
    dsimp only
    rw [if_neg hm, hch]
  · intro s e hst hok hopen
    obtain ⟨tr0, _, heq⟩ := ifSmaller_eq_fromOpen env m s hst hok
    rw [heq, fromOpen_open_err env m s tr0 e hopen]
  · intro s e hst hok hopen hcw hcr hne
    obtain ⟨tr0, _, heq⟩ := ifSmaller_eq_fromOpen env m s hst hok
    rw [heq, fromOpen_read_err env m s tr0 e hopen hcw hcr hne]
  · intro s e hst hok hopen hcw hcr hcl hlen hlate
    obtain ⟨tr0, _, heq⟩ := ifSmaller_eq_fromOpen env m s hst hok
    have hlen' : (runWrites (runWrites ⟨[], (s.size : Int)⟩ env.copyWrites).1
        env.closeWrites).1.buf.length < env.content.length := by
      have e1 := runWrites_none_eq env.copyWrites ⟨[], (s.size : Int)⟩ hcw
      have e2 := runWrites_none_eq env.closeWrites
        (runWrites ⟨[], (s.size : Int)⟩ env.copyWrites).1 hcl
      rw [e2, e1]
      simpa [flatten_length] using hlen
    rw [heq]
    exact fromOpen_late_err env m s tr0 e hopen hcw hcr hcl hlen' hlate

/-- Witness environment: the stat call fails with an I/O error. -/
def envC4 : Env :=
  ⟨Except.error (Err.ioErr 3), none, none, [], [], none, [], none, none, none⟩

/-- Witness for `c4_error_policy`: the stat failure surfaces as a non-nil
error with result `false`, and is not the internal sentinel. -/
theorem c4_error_policy_witness :
    envC4.wf = true ∧
    (IfSmallerBuffer envC4 0).1 = (false, some (Err.ioErr 3)) ∧
    (IfSmallerBuffer envC4 0).1.2 ≠ some Err.sizeThresholdExceeded := by
  have h := c4_error_policy envC4 0
  exact ⟨by decide, h.2.2.2.2.1 (Err.ioErr 3) rfl, h.1 (by decide)⟩

lemma fromOpen_trace_shape (env : Env) (m : Int) (s : Stat) (tr : List FSOp) :
    (ifSmallerFromOpen env m s tr).2 = tr ∨
    ∃ suf, (ifSmallerFromOpen env m s tr).2 = tr ++ FSOp.openSrc :: suf := by
  unfold ifSmallerFromOpen
  cases hopen : env.openErr with
  | some e => exact Or.inl rfl
  | none =>
    dsimp only
    rcases runWrites ⟨[], (s.size : Int)⟩ env.copyWrites with ⟨w1, e1⟩
    cases e1 with
    | some e =>
      dsimp only
      split <;> exact Or.inr ⟨[], by simp⟩
    | none =>
      dsimp only
      cases env.copyReadErr with
      | some e =>
        dsimp only
        split <;> exact Or.inr ⟨[], by simp⟩
      | none =>
        dsimp only
        rcases runWrites w1 env.closeWrites with ⟨w2, e2⟩
        cases e2 with
        | some e =>
          dsimp only
          split <;> exact Or.inr ⟨[], by simp⟩
        | none =>
          dsimp only
          by_cases hlen : env.content.length ≤ w2.buf.length
          · rw [if_pos hlen]; exact Or.inr ⟨[], by simp⟩
          · rw [if_neg hlen]
            cases env.writeFileErr with
            | some e => exact Or.inr ⟨[], by simp⟩
            | none =>
              dsimp only
              cases env.chtimesTmpErr with
              | some e => exact Or.inr ⟨[FSOp.writeTmp w2.buf s.perm], by simp⟩
              | none =>
                dsimp only
                cases env.renameErr with
                | some e =>
                  exact Or.inr ⟨[FSOp.writeTmp w2.buf s.perm, FSOp.chtimesTmp m], by simp⟩
                | none =>
                  exact Or.inr ⟨[FSOp.writeTmp w2.buf s.perm, FSOp.chtimesTmp m,
                    FSOp.renameTmpToGz], by simp⟩

/-- C8: for every file the conditional compressor processes, if the file's
modification time differs from the target `m` the source chtimes happens
before the file is opened for reading (whenever the open happens at all, the
trace starts `[chtimesSrc m, openSrc]`); on success the whole trace is the
mtime normalization, the open, the temporary write, the temporary chtimes to
`m`, and the rename, in that order; and replaying the successful trace on any
filesystem state whose source mtime agrees with the stat leaves both the
source file and the artifact with modification time exactly `m`. -/
theorem c8_timestamps (env : Env) (m : Int) :
    (∀ s, env.stat = Except.ok s → s.mtime ≠ m →
      FSOp.openSrc ∈ (IfSmallerBuffer env m).2 →
      (IfSmallerBuffer env m).2.take 2 = [FSOp.chtimesSrc m, FSOp.openSrc]) ∧
    ((IfSmallerBuffer env m).1.1 = true → ∀ s, env.stat = Except.ok s →
      ∃ b, (IfSmallerBuffer env m).2 =
        (if s.mtime = m then [] else [FSOp.chtimesSrc m]) ++
          [FSOp.openSrc, FSOp.writeTmp b s.perm, FSOp.chtimesTmp m, FSOp.renameTmpToGz]) ∧
    ((IfSmallerBuffer env m).1.1 = true → ∀ s fs0, env.stat = Except.ok s →
      fs0.srcMTime = s.mtime →
      (applyTrace fs0 (IfSmallerBuffer env m).2).srcMTime = m ∧
      (applyTrace fs0 (IfSmallerBuffer env m).2).gzMTime = some m) := by
  have hmain : (IfSmallerBuffer env m).1.1 = true → ∀ s, env.stat = Except.ok s →
      ∃ b, (IfSmallerBuffer env m).2 =
        (if s.mtime = m then [] else [FSOp.chtimesSrc m]) ++
          [FSOp.openSrc, FSOp.writeTmp b s.perm, FSOp.chtimesTmp m, FSOp.renameTmpToGz] := by
    intro h s hst
    obtain ⟨s', tr0, hst', _, hm1, hm2, heq⟩ := ifSmaller_true_inv env m h
    rw [hst] at hst'
    injection hst' with hss
    subst hss
    rw [heq] at h
    obtain ⟨_, _, _, _, _, w1, w2, _, _, _, heq2⟩ := fromOpen_true_inv env m s tr0 h
    refine ⟨w2.buf, ?_⟩
    rw [heq, heq2]
    by_cases hm : s.mtime = m
    · rw [if_pos hm, hm1 hm]
    · rw [if_neg hm, (hm2 hm).2]
  refine ⟨?_, hmain, ?_⟩
  · intro s hst hm hopen
    unfold IfSmallerBuffer at hopen ⊢
    rw [hst] at hopen ⊢
    dsimp only at hopen ⊢
    rw [if_neg hm] at hopen ⊢
    cases hch : env.chtimesSrcErr with
    | some e => rw [hch] at hopen; simp at hopen
    | none =>
      rw [hch] at hopen
      dsimp only at hopen ⊢
      rcases fromOpen_trace_shape env m s [FSOp.chtimesSrc m] with hsh | ⟨suf, hsh⟩
      · rw [hsh] at hopen; simp at hopen
      · rw [hsh]
        simp
  · intro h s fs0 hst hfs
    obtain ⟨b, htr⟩ := hmain h s hst
    rw [htr]
    by_cases hm : s.mtime = m
    · rw [if_pos hm]
      simp [applyTrace, applyOp, hfs, hm]
    · rw [if_neg hm]
      simp [applyTrace, applyOp]

/-- Witness environment for C8: the file's mtime (7) differs from the target
(5), compression shrinks 10 bytes to 4, and no I/O failure occurs. -/
def envC8 : Env :=
  ⟨Except.ok ⟨10, 7, 420⟩, none, none, [0, 1, 2, 3, 4, 5, 6, 7, 8, 9],
    [[1, 2, 3]], none, [[4]], none, none, none⟩

/-- Initial filesystem state for the C8 witness. -/
def fsC8 : FS := ⟨7, none, none, none, none⟩

/-- Witness for `c8_timestamps`: on `envC8` with target mtime 5, the run
succeeds, and replaying its trace pins both the source file and the artifact
at mtime 5. -/
theorem c8_timestamps_witness :
    (IfSmallerBuffer envC8 5).1.1 = true ∧
    (applyTrace fsC8 (IfSmallerBuffer envC8 5).2).srcMTime = 5 ∧
    (applyTrace fsC8 (IfSmallerBuffer envC8 5).2).gzMTime = some 5 := by
  have h := (c8_timestamps envC8 5).2.2
  exact ⟨by decide, h (by decide) ⟨10, 7, 420⟩ fsC8 rfl rfl⟩

lemma hasSibling_found (needle : String) : ∀ f : Forest,
    List.Pairwise (fun a b => goStrLt b a = false) (forestNames f) →
    needle ∈ forestNames f → hasSibling needle f = true := by
  intro f
  induction f with
  | nil => intro _ hmem; simp [forestNames] at hmem
  | file n rest ih =>
    intro hp hmem
    simp only [forestNames] at hp hmem
    rw [List.pairwise_cons] at hp
    by_cases he : n = needle
    · simp [hasSibling, he]
    · have hneedle : needle ∈ forestNames rest := by
        rcases List.mem_cons.mp hmem with h | h
        · exact absurd h.symm he
        · exact h
      have hlt : goStrLt needle n = false := hp.1 needle hneedle
      simp only [hasSibling, he, if_false, hlt]
      exact ih hp.2 hneedle
  | other n rest ih =>
    intro hp hmem
    simp only [forestNames] at hp hmem
    rw [List.pairwise_cons] at hp
    by_cases he : n = needle
    · simp [hasSibling, he]
    · have hneedle : needle ∈ forestNames rest := by
        rcases List.mem_cons.mp hmem with h | h
        · exact absurd h.symm he
        · exact h
      have hlt : goStrLt needle n = false := hp.1 needle hneedle
      simp only [hasSibling, he, if_false, hlt]
      exact ih hp.2 hneedle
  | dir n children rest ihc ih =>
    intro hp hmem
    simp only [forestNames] at hp hmem
    rw [List.pairwise_cons] at hp
    by_cases he : n = needle
    · simp [hasSibling, he]
    · have hneedle : needle ∈ forestNames rest := by
        rcases List.mem_cons.mp hmem with h | h
        · exact absurd h.symm he
        · exact h
      have hlt : goStrLt needle n = false := hp.1 needle hneedle
      simp only [hasSibling, he, if_false, hlt]
      exact ih hp.2 hneedle

lemma hasSibling_sound (needle : String) : ∀ f : Forest,
    hasSibling needle f = true → needle ∈ forestNames f := by
  intro f
  induction f with
  | nil => intro h; simp [hasSibling] at h
  | file n rest ih =>
    intro h
    simp only [hasSibling] at h
    by_cases he : n = needle
    · simp [forestNames, he]
    · rw [if_neg he] at h
      by_cases hl : goStrLt needle n = true
      · rw [if_pos hl] at h; simp at h
      · rw [if_neg hl] at h
        simp [forestNames]
        exact Or.inr (ih h)
  | other n rest ih =>
    intro h
    simp only [hasSibling] at h
    by_cases he : n = needle
    · simp [forestNames, he]
    · rw [if_neg he] at h
      by_cases hl : goStrLt needle n = true
      · rw [if_pos hl] at h; simp at h
      · rw [if_neg hl] at h
        simp [forestNames]
        exact Or.inr (ih h)
  | dir n children rest ihc ih =>
    intro h
    simp only [hasSibling] at h
    by_cases he : n = needle
    · simp [forestNames, he]
    · rw [if_neg he] at h
      by_cases hl : goStrLt needle n = true
      · rw [if_pos hl] at h; simp at h
      · rw [if_neg hl] at h
        simp [forestNames]
        exact Or.inr (ih h)

/-- C5: in the tree walker, a regular file `name` (not itself an artifact)
whose sorted directory listing contains the sibling `name+".gz"` later in the
listing is never enqueued as a work item, regardless of the artifact's
freshness; the forward scan that stops at the first lexicographically greater
name decides sibling presence exactly (it misses nothing on a sorted
listing); and a file whose own name ends in ".gz" is never enqueued. -/
theorem c5_sibling_skip (ign : String → Bool) (pre : List String) (name : String)
    (rest : Forest)
    (hsorted : List.Pairwise (fun a b => goStrLt b a = false)
      (forestNames (Forest.file name rest))) :
    (hasSuffix name ".gz" = false → (name ++ ".gz") ∈ forestNames rest →
      emits ign pre (Forest.file name rest) = emits ign pre rest) ∧
    (hasSuffix name ".gz" = true →
      emits ign pre (Forest.file name rest) = emits ign pre rest) ∧
    (hasSibling (name ++ ".gz") rest = true ↔ (name ++ ".gz") ∈ forestNames rest) := by
  have hrest : List.Pairwise (fun a b => goStrLt b a = false) (forestNames rest) := by
    simp only [forestNames] at hsorted
    exact (List.pairwise_cons.mp hsorted).2
  refine ⟨?_, ?_, ?_⟩
  · intro hgz hmem
    have hsib : hasSibling (name ++ ".gz") rest = true := hasSibling_found _ rest hrest hmem
    simp [emits, hgz, hsib]
  · intro hgz
    simp [emits, hgz]
  · exact ⟨hasSibling_sound _ rest, hasSibling_found _ rest hrest⟩

/-- Witness for `c5_sibling_skip`: listing `[a, a.gz]` is sorted, the file
`a` sees its sibling `a.gz` and is not enqueued, and the artifact `a.gz`
itself is not enqueued either. -/
theorem c5_sibling_skip_witness :
    List.Pairwise (fun a b => goStrLt b a = false)
      (forestNames (Forest.file "a" (Forest.file "a.gz" Forest.nil))) ∧
    hasSuffix "a" ".gz" = false ∧ ("a" ++ ".gz") ∈ forestNames (Forest.file "a.gz" Forest.nil) ∧
    emits (fun _ => false) [] (Forest.file "a" (Forest.file "a.gz" Forest.nil))
      = emits (fun _ => false) [] (Forest.file "a.gz" Forest.nil) ∧
    emits (fun _ => false) [] (Forest.file "a.gz" Forest.nil) = [] := by
  have h := c5_sibling_skip (fun _ => false) [] "a" (Forest.file "a.gz" Forest.nil) (by decide)
  exact ⟨by decide, by decide, by decide, h.1 (by decide) (by decide), by decide⟩

/-- C2, code-bug demonstration.  `Recursive` builds the pattern
`"^" ++ strings.Join(fragments, "|") ++ "$"`; with fragments `a` and `b` this
is `^a|b$`, and RE2 gives alternation the lowest precedence, so it means
`(^a)|(b$)` — only the first alternative is anchored at the start and only
the last at the end.  The relative path `ax` is therefore matched (hence
ignored, and skipped by a worker) although no whole fragment matches the
entire path; with a single fragment, the pattern is fully anchored, as the
spec describes for every case. -/
theorem c2_unanchored_alternation :
    ignoredByCompiled ["a", "b"] "ax" = true ∧
    ignoredByCompiled ["a", "b"] "xb" = true ∧
    fragWholeMatch "a" "ax" = false ∧
    fragWholeMatch "b" "ax" = false ∧
    (worker (fun s => ignoredByCompiled ["a", "b"] s)
      (fun _ => (true, Option.none)) [["ax"]]).invoked = [] ∧
    ignoredByCompiled ["a"] "ax" = false ∧
    ignoredByCompiled ["a"] "a" = true := by decide

lemma spanMatch_cat_iff (s : List Char) (a b : RE) (i j : Nat) :
    spanMatch s (RE.cat a b) i j = true ↔
    ∃ k, i ≤ k ∧ k ≤ j ∧ spanMatch s a i k = true ∧ spanMatch s b k j = true := by
  simp only [spanMatch, List.any_eq_true, List.mem_range, Bool.and_eq_true, decide_eq_true_eq]
  constructor
  · rintro ⟨k, _, ⟨⟨hik, hkj⟩, hsa⟩, hsb⟩
    exact ⟨k, hik, hkj, hsa, hsb⟩
  · rintro ⟨k, hik, hkj, hsa, hsb⟩
    exact ⟨k, by omega, ⟨⟨hik, hkj⟩, hsa⟩, hsb⟩

lemma matchString_iff (r : RE) (s : String) :
    matchString r s = true ↔
    ∃ i j, i ≤ j ∧ j ≤ s.data.length ∧ spanMatch s.data r i j = true := by
  simp only [matchString, List.any_eq_true, List.mem_range, Bool.and_eq_true, decide_eq_true_eq]
  constructor
  · rintro ⟨i, _, j, hj, hij, hsp⟩
    exact ⟨i, j, hij, by omega, hsp⟩
  · rintro ⟨i, j, hij, hjl, hsp⟩
    exact ⟨i, by omega, j, by omega, hij, hsp⟩

lemma matchString_emptyPat (s : String) (h : s ≠ "") :
    matchString (RE.cat RE.bol (RE.cat RE.eol RE.emp)) s = false := by
  have hlen : s.data.length ≠ 0 := by
    intro hc
    exact h (String.ext (by simpa using List.length_eq_zero.mp hc))
  by_contra hb
  have htrue : matchString (RE.cat RE.bol (RE.cat RE.eol RE.emp)) s = true := by
    revert hb
    cases matchString (RE.cat RE.bol (RE.cat RE.eol RE.emp)) s <;> simp
  rw [matchString_iff] at htrue
  obtain ⟨i, j, hij, hjl, hsp⟩ := htrue
  rw [spanMatch_cat_iff] at hsp
  obtain ⟨k, hik, hkj, hbol, hsp2⟩ := hsp
  rw [spanMatch_cat_iff] at hsp2
  obtain ⟨k2, hkk2, hk2j, heol, hemp⟩ := hsp2
  simp only [spanMatch, Bool.and_eq_true, decide_eq_true_eq] at hbol heol hemp
  omega

lemma render_snoc_ne (pre : List String) (name : String) (h : name ≠ "") :
    render (pre ++ [name]) ≠ "" := by
  induction pre with
  | nil => simpa [render] using h
  | cons a pre ih =>
    rcases hpre : pre ++ [name] with _ | ⟨b, t⟩
    · exact absurd hpre (by simp)
    · show render (a :: (pre ++ [name])) ≠ ""
      rw [hpre]
      show a ++ "/" ++ render (b :: t) ≠ ""
      intro hc
      have := congrArg String.length hc
      simp [String.length_append] at this
      exact absurd this.1.2 (by decide)

lemma emits_congr (ign1 ign2 : String → Bool)
    (h : ∀ s, s ≠ "" → ign1 s = ign2 s) :
    ∀ (f : Forest) (pre : List String), namesOk f = true →
      emits ign1 pre f = emits ign2 pre f := by
  intro f
  induction f with
  | nil => intro pre _; rfl
  | file n rest ih =>
    intro pre hn
    simp only [namesOk, Bool.and_eq_true] at hn
    simp only [emits]
    rw [ih pre hn.2]
  | other n rest ih =>
    intro pre hn
    simp only [namesOk, Bool.and_eq_true] at hn
    simp only [emits]
    exact ih pre hn.2
  | dir n children rest ihc ih =>
    intro pre hn
    simp only [namesOk, Bool.and_eq_true] at hn
    have hne : n ≠ "" := by
      rcases hn with ⟨⟨h1, _⟩, _⟩
      intro hc
      rw [if_pos hc] at h1
      exact Bool.false_ne_true h1
    have hpath : ign1 (render (pre ++ [n])) = ign2 (render (pre ++ [n])) :=
      h _ (render_snoc_ne pre n hne)
    simp only [emits, hpath]
    rw [ihc (pre ++ [n]) hn.1.2, ih pre hn.2]

lemma worker_congr (ign1 ign2 : String → Bool)
    (compress : List String → Bool × Option Err)
    (h : ∀ s, s ≠ "" → ign1 s = ign2 s) :
    ∀ items : List (List String), (∀ p ∈ items, render p ≠ "") →
      worker ign1 compress items = worker ign2 compress items := by
  intro items
  induction items with
  | nil => intro _; rfl
  | cons p rest ih =>
    intro hne
    have hp : ign1 (render p) = ign2 (render p) := h _ (hne p (by simp))
    simp only [worker, hp]
    rw [ih (fun q hq => hne q (by simp [hq]))]

/-- C9 (implicit): with no ignore fragments, `Recursive` compiles the
pattern `^$`, which matches only the empty string; every relative path the
walker or a worker tests is nonempty (entry names are nonempty and paths are
slash-joined), so nothing is ever ignored: the walker emits exactly what it
would emit with a never-matching pattern, and a worker skips nothing. -/
theorem c9_empty_pattern (re : RE) (hre : goCompilePattern [] = some re)
    (tree : Forest) (hnames : namesOk tree = true)
    (compress : List String → Bool × Option Err) (items : List (List String))
    (hitems : ∀ p ∈ items, render p ≠ "") :
    (∀ s : String, s ≠ "" → matchString re s = false) ∧
    emits (matchString re) [] tree = emits (fun _ => false) [] tree ∧
    worker (matchString re) compress items = worker (fun _ => false) compress items := by
  have hast : re = RE.cat RE.bol (RE.cat RE.eol RE.emp) := by
    have hc : goCompilePattern [] = some (RE.cat RE.bol (RE.cat RE.eol RE.emp)) := rfl
    rw [hc] at hre
    injection hre with hre
    exact hre.symm
  subst hast
  have hmatch : ∀ s : String, s ≠ "" →
      matchString (RE.cat RE.bol (RE.cat RE.eol RE.emp)) s = false :=
    fun s hs => matchString_emptyPat s hs
  have hcong : ∀ s : String, s ≠ "" →
      matchString (RE.cat RE.bol (RE.cat RE.eol RE.emp)) s = (fun _ : String => false) s := by
    intro s hs
    simp [hmatch s hs]
  exact ⟨hmatch, emits_congr _ _ hcong tree [] hnames,
    worker_congr _ _ compress hcong items hitems⟩

/-- Witness for `c9_empty_pattern`: a one-file tree; the compiled empty
pattern ignores nothing. -/
theorem c9_empty_pattern_witness :
    goCompilePattern [] = some (RE.cat RE.bol (RE.cat RE.eol RE.emp)) ∧
    emits (matchString (RE.cat RE.bol (RE.cat RE.eol RE.emp))) [] (Forest.file "a" Forest.nil)
      = emits (fun _ => false) [] (Forest.file "a" Forest.nil) ∧
    matchString (RE.cat RE.bol (RE.cat RE.eol RE.emp)) "a" = false := by
  have h := c9_empty_pattern (RE.cat RE.bol (RE.cat RE.eol RE.emp)) rfl
    (Forest.file "a" Forest.nil) (by decide) (fun _ => (true, Option.none)) [["a"]] (by decide)
  exact ⟨rfl, h.2.1, h.1 "a" (by decide)⟩

lemma nilIsPre {α : Type} (l : List α) : [] <+: l :=
  List.nil_prefix

lemma preComparable {α : Type} {l1 l2 l3 : List α} (h1 : l1 <+: l3) (h2 : l2 <+: l3) :
    l1 <+: l2 ∨ l2 <+: l1 :=
  List.prefix_or_prefix_of_prefix h1 h2

/-- C10 (implicit): the walker tests the ignore pattern only on directory
entries: a regular file whose relative path matches the pattern is still
emitted onto the work queue (when its name is not an artifact name and no
sibling artifact exists), and it is excluded from compression solely by the
worker's re-check after dequeue — the worker drops the matching head item
without invoking the compressor. -/
theorem c10_worker_recheck (ign : String → Bool)
    (compress : List String → Bool × Option Err)
    (pre : List String) (name : String) (rest : Forest) (items : List (List String))
    (hgz : hasSuffix name ".gz" = false)
    (hsib : hasSibling (name ++ ".gz") rest = false)
    (hmatch : ign (render (pre ++ [name])) = true) :
    (pre ++ [name]) ∈ emits ign pre (Forest.file name rest) ∧
    worker ign compress ((pre ++ [name]) :: items) = worker ign compress items := by
  constructor
  · simp [emits, hgz, hsib]
  · simp [worker, hmatch]

/-- Witness for `c10_worker_recheck`: the file `a` matches the ignore test,
is still emitted by the walker, and the worker then skips it. -/
theorem c10_worker_recheck_witness :
    (fun s => s == "a") (render (([] : List String) ++ ["a"])) = true ∧
    (([] : List String) ++ ["a"]) ∈
      emits (fun s => s == "a") [] (Forest.file "a" Forest.nil) ∧
    worker (fun s => s == "a") (fun _ => (true, Option.none)) [["a"]] =
      worker (fun s => s == "a") (fun _ => (true, Option.none)) [] := by
  have h := c10_worker_recheck (fun s => s == "a") (fun _ => (true, Option.none))
    [] "a" Forest.nil [] (by decide) (by decide) (by decide)
  exact ⟨by decide, h.1, h.2⟩

lemma worker_invoked_sub (ign : String → Bool) (compress : List String → Bool × Option Err) :
    ∀ (items : List (List String)) (p : List String),
      p ∈ (worker ign compress items).invoked → p ∈ items := by
  intro items
  induction items with
  | nil => intro p hp; simp [worker] at hp
  | cons q rest ih =>
    intro p hp
    by_cases hig : ign (render q) = true
    · simp only [worker, hig, if_true] at hp
      exact List.mem_cons_of_mem q (ih p hp)
    · simp only [worker, hig, if_false] at hp
      rcases hc : compress q with ⟨changed, err⟩
      rw [hc] at hp
      cases err with
      | none =>
        dsimp only at hp
        rcases List.mem_cons.mp hp with h | h
        · exact h ▸ List.mem_cons_self q rest
        · exact List.mem_cons_of_mem q (ih p h)
      | some e =>
        dsimp only at hp
        rcases List.mem_cons.mp hp with h | h
        · exact h ▸ List.mem_cons_self q rest
        · simp at h
  
lemma worker_invoked_not_ignored (ign : String → Bool)
    (compress : List String → Bool × Option Err) :
    ∀ (items : List (List String)) (p : List String),
      p ∈ (worker ign compress items).invoked → ign (render p) = false := by
  intro items
  induction items with
  | nil => intro p hp; simp [worker] at hp
  | cons q rest ih =>
    intro p hp
    by_cases hig : ign (render q) = true
    · simp only [worker, hig, if_true] at hp
      exact ih p hp
    · simp only [worker, hig, if_false] at hp
      rcases hc : compress q with ⟨changed, err⟩
      rw [hc] at hp
      cases err with
      | none =>
        dsimp only at hp
        rcases List.mem_cons.mp hp with h | h
        · subst h
          exact Bool.not_eq_true _ ▸ (by revert hig; cases ign (render p) <;> simp)
        · exact ih p h
      | some e =>
        dsimp only at hp
        rcases List.mem_cons.mp hp with h | h
        · subst h
          exact Bool.not_eq_true _ ▸ (by revert hig; cases ign (render p) <;> simp)
        · simp at h

lemma emits_extends (ign : String → Bool) :
    ∀ (f : Forest) (pre p : List String), p ∈ emits ign pre f →
      ∃ suf, suf ≠ [] ∧ p = pre ++ suf := by
  intro f
  induction f with
  | nil => intro pre p hp; simp [emits] at hp
  | file name rest ih =>
    intro pre p hp
    simp only [emits, List.mem_append] at hp
    rcases hp with hp | hp
    · refine ⟨[name], by simp, ?_⟩
      split at hp
      · simp at hp
      · split at hp
        · simp at hp
        · simpa using hp
    · exact ih pre p hp
  | other name rest ih =>
    intro pre p hp
    exact ih pre p hp
  | dir name children rest ihc ih =>
    intro pre p hp
    simp only [emits, List.mem_append] at hp
    rcases hp with hp | hp
    · split at hp
      · simp at hp
      · obtain ⟨suf, hs, rfl⟩ := ihc (pre ++ [name]) p hp
        exact ⟨name :: suf, by simp, by simp⟩
    · exact ih pre p hp

lemma emits_ancestors (ign : String → Bool) :
    ∀ (f : Forest) (pre p : List String), p ∈ emits ign pre f →
      ∀ q, pre <+: q → q <+: p → q ≠ p → q ≠ pre → ign (render q) = false := by
  intro f
  induction f with
  | nil => intro pre p hp; simp [emits] at hp
  | file name rest ih =>
    intro pre p hp q hpreq hqp hqnp hqnpre
    simp only [emits, List.mem_append] at hp
    rcases hp with hp | hp
    · have hpval : p = pre ++ [name] := by
        split at hp
        · simp at hp
        · split at hp
          · simp at hp
          · simpa using hp
      subst hpval
      exfalso
      have h1 : pre.length ≤ q.length := hpreq.length_le
      have h2 : q.length ≤ pre.length + 1 := by
        have := hqp.length_le
        simpa using this
      by_cases hq1 : q.length = pre.length
      · exact hqnpre (hpreq.eq_of_length hq1.symm).symm
      · have : q.length = pre.length + 1 := by omega
        exact hqnp (hqp.eq_of_length (by simpa using this))
    · exact ih pre p hp q hpreq hqp hqnp hqnpre
  | other name rest ih =>
    intro pre p hp q hpreq hqp hqnp hqnpre
    exact ih pre p hp q hpreq hqp hqnp hqnpre
  | dir name children rest ihc ih =>
    intro pre p hp q hpreq hqp hqnp hqnpre
    simp only [emits, List.mem_append] at hp
    rcases hp with hp | hp
    · rcases hig : ign (render (pre ++ [name])) with hv | hv
      · rw [hig] at hp
        rw [if_neg (by simp)] at hp
        have hpre' : (pre ++ [name]) <+: p := by
          obtain ⟨suf, _, rfl⟩ := emits_extends ign children (pre ++ [name]) p hp
          exact ⟨suf, rfl⟩
        rcases preComparable hqp hpre' with hcase | hcase
        · by_cases hqpre' : q = pre ++ [name]
          · rw [hqpre']
            exact hig
          · exfalso
            have h1 : pre.length ≤ q.length := hpreq.length_le
            have h2 : q.length ≤ pre.length + 1 := by
              have := hcase.length_le
              simpa using this
            by_cases hq1 : q.length = pre.length
            · exact hqnpre (hpreq.eq_of_length hq1.symm).symm
            · have : q.length = pre.length + 1 := by omega
              exact hqpre' (hcase.eq_of_length (by simpa using this))
        · by_cases hqpre' : q = pre ++ [name]
          · rw [hqpre']
            exact hig
          · exact ihc (pre ++ [name]) p hp q hcase hqp hqnp hqpre'
      · rw [hig] at hp
        rw [if_pos rfl] at hp
        simp at hp
    · exact ih pre p hp q hpreq hqp hqnp hqnpre

/-- C6: for every relative path that matches the ignore pattern, the
compressor is never invoked on that path or on anything beneath it: over any
set of dequeued items drawn from the walker's emissions, no path on which a
worker invokes the conditional compressor has a matching path as a prefix —
the walker never descends into a matching directory (so nothing beneath it is
ever emitted) and the worker skips a matching dequeued path itself. -/
theorem c6_ignore_subtree (ign : String → Bool)
    (compress : List String → Bool × Option Err)
    (tree : Forest) (items : List (List String))
    (hitems : ∀ p ∈ items, p ∈ emits ign [] tree)
    (q : List String) (hq : q ≠ []) (hmatch : ign (render q) = true) :
    ∀ p ∈ (worker ign compress items).invoked, ¬ q <+: p := by
  intro p hp hqp
  have hpi : p ∈ items := worker_invoked_sub ign compress items p hp
  have hpf : ign (render p) = false := worker_invoked_not_ignored ign compress items p hp
  have hpe : p ∈ emits ign [] tree := hitems p hpi
  by_cases hqe : q = p
  · subst hqe
    rw [hpf] at hmatch
    exact Bool.false_ne_true hmatch
  · have := emits_ancestors ign tree [] p hpe q (nilIsPre q) hqp hqe hq
    rw [this] at hmatch
    exact Bool.false_ne_true hmatch

/-- Witness for `c6_ignore_subtree`: directory `d` matches the pattern, the
walker emits only the sibling file `g`, and the invoked path `g` does not lie
under `d`. -/
theorem c6_ignore_subtree_witness :
    (["d"] : List String) ≠ [] ∧
    (fun s => s == "d") (render ["d"]) = true ∧
    ¬ (["d"] : List String) <+: ["g"] := by
  have h := c6_ignore_subtree (fun s => s == "d") (fun _ => (true, Option.none))
    (Forest.dir "d" (Forest.file "f" Forest.nil) (Forest.file "g" Forest.nil))
    [["g"]] (by decide) ["d"] (by decide) (by decide)
  exact ⟨by decide, by decide, h ["g"] (by decide)⟩

lemma worker_count_spec (ign : String → Bool) (compress : List String → Bool × Option Err) :
    ∀ items : List (List String),
      (worker ign compress items).n =
      ((worker ign compress items).invoked.filter
        (fun p => (compress p).1 && (compress p).2.isNone)).length := by
  intro items
  induction items with
  | nil => rfl
  | cons p rest ih =>
    by_cases hig : ign (render p) = true
    · simp only [worker, hig, if_true]
      exact ih
    · simp only [worker, hig, if_false]
      rcases hc : compress p with ⟨changed, err⟩
      cases err with
      | some e => simp [hc]
      | none =>
        cases changed with
        | true => simp [hc, List.filter, ih]; omega
        | false => simp [hc, List.filter, ih]

/-- C7: the result of `Recursive` is the sum of all workers' individual
counts, where each worker's count is exactly the number of its compressor
invocations that reported a change with no error (so a worker that stops at
an error still contributes its partial count to the total); the returned
error is the walker's traversal error when there is one, and otherwise the
first worker error in publication order. -/
theorem c7_aggregation (frags : List String) (re : RE)
    (hre : goCompilePattern frags = some re)
    (compress : List String → Bool × Option Err) (walkErr : Option Err)
    (shares : List (List (List String))) :
    (Recursive frags compress walkErr shares).1 =
      ((shares.map (worker (matchString re) compress)).map WorkerRes.n).sum ∧
    (∀ w ∈ shares.map (worker (matchString re) compress),
      w.n = (w.invoked.filter (fun p => (compress p).1 && (compress p).2.isNone)).length) ∧
    (∀ e, walkErr = some e → (Recursive frags compress walkErr shares).2 = some e) ∧
    (walkErr = none → (Recursive frags compress walkErr shares).2 =
      firstPublishedErr (shares.map (worker (matchString re) compress))) := by
  refine ⟨?_, ?_, ?_, ?_⟩
  · unfold Recursive
    rw [hre]
    rfl
  · intro w hw
    obtain ⟨items, _, rfl⟩ := List.mem_map.mp hw
    exact worker_count_spec (matchString re) compress items
  · intro e he
    unfold Recursive
    rw [hre]
    unfold RecursiveAgg
    rw [he]
  · intro he
    unfold Recursive
    rw [hre]
    unfold RecursiveAgg
    rw [he]

/-- Ignore-test fragment used by the C7 witness: the single fragment `a`. -/
def reC7 : RE := RE.cat RE.bol (RE.cat (RE.lit 'a') (RE.cat RE.eol RE.emp))

/-- Compressor used by the C7 witness: fails on `y`, succeeds elsewhere. -/
def compressC7 : List String → Bool × Option Err :=
  fun p => if p = ["y"] then (false, some (Err.ioErr 7)) else (true, none)

/-- Witness for `c7_aggregation`: two workers, one compresses `x`
successfully, the other fails on `y`; the run returns count 1 together with
the first published worker error. -/
theorem c7_aggregation_witness :
    goCompilePattern ["a"] = some reC7 ∧
    Recursive ["a"] compressC7 none [[["x"]], [["y"]]] = (1, some (Err.ioErr 7)) ∧
    (Recursive ["a"] compressC7 none [[["x"]], [["y"]]]).2 =
      firstPublishedErr ([[["x"]], [["y"]]].map (worker (matchString reC7) compressC7)) := by
  have h := c7_aggregation ["a"] reC7 (by decide) compressC7 none [[["x"]], [["y"]]]
  exact ⟨by decide, by decide, h.2.2.2 rfl⟩
